import Mathlib

/-!
Shallow embedding of the pseudo-random generator library in `src/main.cpp`.

All generator state variables in the C++ source are `unsigned long long`
(64-bit, wrap-around arithmetic); they are modelled as `ℕ` with explicit
reduction `% 2 ^ 64` at every arithmetic step that the C++ code performs on
that type.  The `double` values produced by the generators and consumed by
the histogram are modelled as exact rationals `ℚ`; the divisions the code
performs are exact in this model.  The polar generator's real-valued
transform `sqrt(-2*log(s)/s)` is kept abstract as a function parameter
`f : ℚ → ℚ`, since the claims about that generator concern its caching and
rejection-loop control flow, not the value of the transform.
-/

/-- Wrap-around modulus of C++ `unsigned long long` arithmetic. -/
def u64Mod : ℕ := 2 ^ 64

/-- `LinearCongruentialGenerator::getNext` state update (main.cpp line 23):
`x = (a * x + c) % m` computed in 64-bit unsigned arithmetic. -/
def lcgStep (m a c x : ℕ) : ℕ := (a * x % u64Mod + c) % u64Mod % m

/-- `LinearCongruentialGenerator::getNext` (main.cpp lines 22-25): returns the
pair (returned value `x/m` as an exact rational, new state). -/
def lcgGetNext (m a c x : ℕ) : ℚ × ℕ :=
  let xNew := lcgStep m a c x
  ((xNew : ℚ) / (m : ℚ), xNew)

/-- `QuadraticCongruentialGenerator::getNext` state update (main.cpp line 39):
`x = (d * x * x + a * x + c) % m`, every product and sum wrapping at 2^64 as
in the C++ unsigned 64-bit evaluation `((d*x)*x + a*x) + c`. -/
def qcgStep (m a c d x : ℕ) : ℕ :=
  ((d * x % u64Mod * x % u64Mod + a * x % u64Mod) % u64Mod + c) % u64Mod % m

/-- `FibonacciGenerator` constructor (main.cpp lines 52-56): lag registers
start as `x1 = 0, x2 = 1`; when `seed != 0` the constructor overwrites
`x1 = seed`.  Result is the pair `(x1, x2)`. -/
def fibInit (seed : ℕ) : ℕ × ℕ :=
  if seed ≠ 0 then (seed, 1) else (0, 1)

/-- `FibonacciGenerator::getNext` new value (main.cpp line 59):
`nextValue = (x1 + x2) % m` in 64-bit unsigned arithmetic. -/
def fibStep (m x1 x2 : ℕ) : ℕ := (x1 + x2) % u64Mod % m

/-- `FibonacciGenerator::getNext` (main.cpp lines 58-65): returns the
returned value `nextValue/m` together with the shifted registers
`(x1, x2) := (x2, nextValue)`. -/
def fibGetNext (m x1 x2 : ℕ) : ℚ × ℕ × ℕ :=
  let nextValue := fibStep m x1 x2
  ((nextValue : ℚ) / (m : ℚ), x2, nextValue)

/-- Loop of `InverseCongruentialGenerator::modInverse` (main.cpp lines
79-87); state `(a, m, x0, x1)`, all `unsigned long long`.  The C++ update
`x0 = x1 - q * x0` on an unsigned type wraps at 2^64, which is modelled by
`(x1 + (2^64 - q * x0 % 2^64)) % 2^64`.  The first argument is fuel; the
caller passes more fuel than the Euclid loop can ever consume, so the fuel
case is never the one that returns. -/
def modInvLoop : ℕ → ℕ → ℕ → ℕ → ℕ → ℕ
  | 0, _, _, _, x1 => x1
  | fuel + 1, a, m, x0, x1 =>
    if 1 < a then
      let q := a / m
      modInvLoop fuel m (a % m) ((x1 + (u64Mod - q * x0 % u64Mod)) % u64Mod) x0
    else x1

/-- `InverseCongruentialGenerator::modInverse` (main.cpp lines 74-94).  The
final C++ check `if (x1 < 0) x1 += m0` is kept verbatim: on the unsigned
type it compares an unsigned value against 0, so it can never fire — exactly
as in the source. -/
def icgModInverse (a m : ℕ) : ℕ :=
  let m0 := m
  let x1 := modInvLoop (a + m + 1) a m 0 1
  if x1 < 0 then x1 + m0 else x1

/-- `InverseCongruentialGenerator::getNext` (main.cpp lines 99-106): computes
`inv_x = modInverse(x, p)`, then `x = (a * inv_x + c) % p` in 64-bit unsigned
arithmetic, and returns `(x/p, new state)`.  There is no error path in the
source, so the model returns a plain value for every input. -/
def icgGetNext (p a c x : ℕ) : ℚ × ℕ :=
  let invx := icgModInverse x p
  let xNew := (a * invx % u64Mod + c) % u64Mod % p
  ((xNew : ℚ) / (p : ℚ), xNew)

/-- `CombineMethodgenerator::getNext` (main.cpp lines 115-123) applied to the
two values `x = X->getNext()` and `y = Y->getNext()`:
`difference = x - y; if (difference < 0) difference += 1`. -/
def combineGetNext (x y : ℚ) : ℚ :=
  let difference := x - y
  if difference < 0 then difference + 1 else difference

/-- Rejection loop of `PolarCoordinateGenerator::getNext` (main.cpp lines
162-166).  The input list holds the successive raw `std::rand()` outputs;
each iteration consumes two of them, scales each by `2.0 * r / 2147483647`
exactly as line 163-164 do, and repeats while `s >= 1.0`.  Returns
`(v1, v2, s, remaining draws)` on acceptance, `none` if the draws run out. -/
def polarLoop : List ℚ → Option (ℚ × ℚ × ℚ × List ℚ)
  | r1 :: r2 :: rest =>
    let v1 := 2 * r1 / 2147483647
    let v2 := 2 * r2 / 2147483647
    let s := v1 * v1 + v2 * v2
    if 1 ≤ s then polarLoop rest else some (v1, v2, s, rest)
  | _ => none

/-- `PolarCoordinateGenerator::getNext` (main.cpp lines 155-174).  `last` is
the cached member (initialised to -1); `f s` abstracts the real transform
`sqrt((-2.0 * log(s)) / s)` of lines 168-169.  Returns
`(returned value, new `last`, remaining draws)`. -/
def polarGetNext (f : ℚ → ℚ) (last : ℚ) (draws : List ℚ) :
    Option (ℚ × ℚ × List ℚ) :=
  if 0 < last then some (last, -1, draws)
  else
    match polarLoop draws with
    | some (v1, v2, s, rest) => some (v1 * f s, v2 * f s, rest)
    | none => none

/-- Two successive `PolarCoordinateGenerator::getNext` calls; result is the
list of raw draws still unconsumed after the second call. -/
def polarTwoCalls (f : ℚ → ℚ) (last : ℚ) (draws : List ℚ) : Option (List ℚ) :=
  match polarGetNext f last draws with
  | some (_, last1, d1) =>
    match polarGetNext f last1 d1 with
    | some (_, _, d2) => some d2
    | none => none
  | none => none

/-- Bin index the `histogram` function computes for a sample (main.cpp line
185): `(int)((randomValue - minRange) / intervalSize)` with
`intervalSize = (maxRange - minRange) / numIntervals` (line 181).  For the
samples that pass the line-184 range guard the quotient is nonnegative, so
the C++ truncation toward zero agrees with the floor used here. -/
def binIndex (minR maxR : ℚ) (n : ℕ) (v : ℚ) : ℤ :=
  ⌊(v - minR) / ((maxR - minR) / (n : ℚ))⌋

/-- One iteration of the sample loop of `histogram` (main.cpp lines 183-188):
a sample inside `[minRange, maxRange]` increments the bin at its computed
index, any other sample is skipped.  The bins are modelled as a total map
from `ℤ` so that the out-of-range index the code can compute is represented
instead of being undefined behaviour. -/
def histUpdate (minR maxR : ℚ) (n : ℕ) (bins : ℤ → ℕ) (v : ℚ) : ℤ → ℕ :=
  if minR ≤ v ∧ v ≤ maxR then
    Function.update bins (binIndex minR maxR n v) (bins (binIndex minR maxR n v) + 1)
  else bins

/-- The frequency counts after the whole sample loop of `histogram`
(main.cpp lines 179-188), starting from the all-zero vector. -/
def histBins (samples : List ℚ) (minR maxR : ℚ) (n : ℕ) : ℤ → ℕ :=
  samples.foldl (histUpdate minR maxR n) (fun _ => 0)

/-- Output of `histogram` (main.cpp lines 190-197): for each bin
`i < numIntervals` the triple (range start, range end, relative frequency),
with the frequency computed as `frequencyIntervals[i] / randomValues.size()`
(line 194) — the denominator is the total sample count. -/
def histogram (samples : List ℚ) (minR maxR : ℚ) (n : ℕ) : List (ℚ × ℚ × ℚ) :=
  let intervalSize := (maxR - minR) / (n : ℚ)
  (List.range n).map (fun (i : ℕ) =>
    (minR + (i : ℚ) * intervalSize, minR + ((i : ℚ) + 1) * intervalSize,
      (histBins samples minR maxR n (Int.ofNat i) : ℚ) / (samples.length : ℚ)))

/-- Membership of a sample in bin `i`: it passes the range guard and its
computed index is `i`.  Used to restate the folded counts of `histBins`. -/
def inBin (minR maxR : ℚ) (n : ℕ) (i : ℤ) (v : ℚ) : Bool :=
  decide ((minR ≤ v ∧ v ≤ maxR) ∧ binIndex minR maxR n v = i)

/-- The range guard of main.cpp line 184 as a Boolean predicate. -/
def inRange (minR maxR : ℚ) (v : ℚ) : Bool := decide (minR ≤ v ∧ v ≤ maxR)

/-! ## Claim theorems -/

/-- Claim C1 (code bug): the claim says a sample exactly equal to `maxRange`
is clamped into the last bin.  In the source there is no clamp: for the call
`histogram([1], 0, 1, 1)` the sample `1 = maxRange` passes the range guard,
its computed bin index is `1 = numIntervals`, strictly beyond the last valid
index `numIntervals - 1 = 0`, so line 186 writes past the end of the
one-element bin vector; accordingly the sample is missing from every
reported bin. -/
theorem histogram_maxRange_index_overflow :
    ((0 : ℚ) ≤ 1 ∧ (1 : ℚ) ≤ 1) ∧
    binIndex 0 1 1 1 = 1 ∧
    ¬ binIndex 0 1 1 1 ≤ (1 : ℤ) - 1 ∧
    histogram [1] 0 1 1 = [(0, 1, 0)] := by
  have hbi : binIndex 0 1 1 1 = 1 := by
    norm_num [binIndex]
  have hb : histBins [1] 0 1 1 0 = 0 := by
    simp only [histBins, List.foldl_cons, List.foldl_nil, histUpdate]
    rw [if_pos (by norm_num : (0 : ℚ) ≤ 1 ∧ (1 : ℚ) ≤ 1), hbi,
      Function.update_apply]
    norm_num
  refine ⟨by norm_num, hbi, by rw [hbi]; norm_num, ?_⟩
  simp only [histogram]
  rw [show List.range 1 = [0] by decide]
  simp only [List.map_cons, List.map_nil]
  norm_num [hb]

/-- Claim C2 (code bug): the claim says calling `getNext` of the inverse
congruential generator on a state not coprime with the modulus (such as
state 0) yields a defined error.  The source has no error path at all:
with the parameters the program itself uses (p = 2147483647, a = 16805,
c = 10) and state x = 0, `modInverse(0, p)` silently returns 1 and
`getNext` returns the plain numeric value 16815/2147483647. -/
theorem icg_state_zero_returns_numeric_value :
    icgGetNext 2147483647 16805 10 0 = ((16815 : ℚ) / 2147483647, 16815) := by
  have hloop : modInvLoop (0 + 2147483647 + 1) 0 2147483647 0 1 = 1 := by
    rw [show (0 + 2147483647 + 1 : ℕ) = Nat.succ 2147483647 from rfl]
    simp [modInvLoop]
  have hmi : icgModInverse 0 2147483647 = 1 := by
    simp [icgModInverse, hloop]
  have hx : (16805 * 1 % u64Mod + 10) % u64Mod % 2147483647 = 16815 := by
    decide
  simp only [icgGetNext, hmi, hx]
  norm_num

/-- Claim C3 (code bug): the claim says `modInverse` returns `y < p` with
`(x * y) % p = 1` for `x` coprime with `p`, correcting a negative final
Euclid coefficient by adding the modulus.  The source keeps the Euclid
bookkeeping in unsigned 64-bit variables, so the coefficient wraps at 2^64
and the correction `if (x1 < 0)` can never fire: `modInverse(2, 5)` returns
2^64 - 2 = 18446744073709551614, which is not below 5, and
`(2 * modInverse(2, 5)) % 5 = 3`, not 1 (the true inverse is 3). -/
theorem icg_modInverse_unsigned_wrap :
    icgModInverse 2 5 = 18446744073709551614 ∧
    ¬ icgModInverse 2 5 < 5 ∧
    (2 * icgModInverse 2 5) % 5 ≠ 1 := by
  decide

/-- Claim C5 (code bug): the claim says the polar generator's rejection loop
only accepts `s` strictly inside (0,1), with `v1`, `v2` drawn in (-1,1).
The source's loop condition (line 166) is only `s >= 1.0`, so when the
uniform source yields the raw draws 0, 0 the loop accepts `v1 = v2 = 0`
with `s = 0` and `getNext` returns a value computed from `s = 0`; moreover
the scaling `2.0 * rand() / 2147483647` (lines 163-164) produces draws in
[0, 2], not (-1, 1): the raw draw 2147483647 is scaled to 2. -/
theorem polar_accepts_s_zero :
    polarLoop [0, 0] = some (0, 0, 0, []) ∧
    polarGetNext (fun _ => 1) (-1) [0, 0] = some (0, 0, []) ∧
    2 * (2147483647 : ℚ) / 2147483647 = 2 := by
  have hl : polarLoop [0, 0] = some (0, 0, 0, []) := by
    simp only [polarLoop]
    norm_num
  refine ⟨hl, ?_, by norm_num⟩
  simp only [polarGetNext, hl]
  norm_num

/-- Claim C6 (code bug): the claim says the quadratic generator's update is
the exact value `(d*x^2 + a*x + c) % m`, with widened intermediates so that
64-bit overflow never distorts it.  The source computes
`(d * x * x + a * x + c) % m` directly on `unsigned long long`, wrapping at
2^64: with the program's own parameters (m = 2147483647, a = 40014, c = 0,
d = 53668) and state x = 2147483646 the code produces 2147443637 while the
exact mathematical update is 13654. -/
theorem qcg_step_overflow_distorts :
    qcgStep 2147483647 40014 0 53668 2147483646 = 2147443637 ∧
    (53668 * 2147483646 ^ 2 + 40014 * 2147483646 + 0) % 2147483647 = 13654 ∧
    (2147443637 : ℕ) ≠ 13654 := by
  decide

/-- Counterexample to claim C8 as stated: for the parameters m = 3,
a = 2^32, c = 0 and state x = 2^32 the product `a * x` wraps at 2^64, so the
code's next state is 0 while the claimed update `(a*x + c) % m` equals 1. -/
theorem lcg_overflow_counterexample :
    lcgStep 3 (2 ^ 32) 0 (2 ^ 32) = 0 ∧
    (2 ^ 32 * 2 ^ 32 + 0) % 3 = 1 ∧
    (0 : ℕ) ≠ 1 := by
  decide

/-- Claim C8 (amended): when `a * x + c` does not overflow 64-bit unsigned
arithmetic, one step of the linear congruential generator updates the state
to `(a*x + c) % m` exactly as claimed; and the end-to-end example holds:
LinearCongruentialGenerator(m = 2147483647, a = 16807, c = 0, seed = 1)
returns exactly 16807/2147483647 on its first call. -/
theorem lcg_step_no_overflow (m a c x : ℕ) (h : a * x + c < 2 ^ 64) :
    lcgStep m a c x = (a * x + c) % m ∧
    lcgGetNext 2147483647 16807 0 1 = ((16807 : ℚ) / 2147483647, 16807) := by
  constructor
  · have hax : a * x < 2 ^ 64 := lt_of_le_of_lt (Nat.le_add_right _ c) h
    unfold lcgStep u64Mod
    rw [Nat.mod_eq_of_lt hax, Nat.mod_eq_of_lt h]
  · have hs : lcgStep 2147483647 16807 0 1 = 16807 := by decide
    simp only [lcgGetNext, hs]
    norm_num

/-- Witness for `lcg_step_no_overflow` at the end-to-end example input. -/
theorem lcg_step_no_overflow_witness :
    16807 * 1 + 0 < 2 ^ 64 ∧
    lcgStep 2147483647 16807 0 1 = (16807 * 1 + 0) % 2147483647 :=
  ⟨by decide, (lcg_step_no_overflow 2147483647 16807 0 1 (by decide)).1⟩

/-- Counterexample to claim C9 as stated: with m = 3 and seed = 2^64 - 1 the
first call's lag sum `x1 + x2 = 2^64` wraps to 0 in the 64-bit unsigned
addition, so the code returns 0 and stores next state 0, while the claimed
value `((x1 + x2) % m) / m` is 1/3 with next state 1. -/
theorem fib_overflow_counterexample :
    fibGetNext 3 (2 ^ 64 - 1) 1 = (0, 1, 0) ∧
    ((2 ^ 64 - 1) + 1) % 3 = 1 ∧
    ((0 : ℚ), (1 : ℕ), (0 : ℕ)) ≠ ((1 : ℚ) / 3, 1, 1) := by
  have hs : fibStep 3 (2 ^ 64 - 1) 1 = 0 := by decide
  refine ⟨?_, by decide, ?_⟩
  · simp only [fibGetNext, hs]
    norm_num
  · simp only [ne_eq, Prod.mk.injEq, not_and]
    intro h
    norm_num at h

/-- Claim C9 (amended): the constructor's lag registers are `(seed, 1)` in
every case — `(0, 1)` for seed = 0 and `(k, 1)` for seed = k ≠ 0, the
claimed seeding law — and whenever the lag sum `x1 + x2` does not overflow
64-bit arithmetic, `getNext` returns `((x1 + x2) % m) / m` and shifts the
registers to `(x2, (x1 + x2) % m)` exactly as claimed. -/
theorem fib_seeding_and_step (m seed x1 x2 : ℕ) :
    fibInit seed = (seed, 1) ∧
    (x1 + x2 < 2 ^ 64 →
      fibGetNext m x1 x2 = ((((x1 + x2) % m : ℕ) : ℚ) / (m : ℚ), x2, (x1 + x2) % m)) := by
  constructor
  · by_cases h : seed = 0 <;> simp [fibInit, h]
  · intro h
    unfold fibGetNext fibStep u64Mod
    rw [Nat.mod_eq_of_lt h]

/-- Witness for `fib_seeding_and_step`: seed 7, modulus 3, first call from
the seeded registers (7, 1). -/
theorem fib_seeding_and_step_witness :
    fibInit 7 = (7, 1) ∧
    (7 + 1 < 2 ^ 64 ∧
      fibGetNext 3 7 1 = ((((7 + 1) % 3 : ℕ) : ℚ) / (3 : ℚ), 1, (7 + 1) % 3)) :=
  ⟨(fib_seeding_and_step 3 7 7 1).1,
   by decide,
   (fib_seeding_and_step 3 7 7 1).2 (by decide)⟩

/-- Claim C10 (confirmed): whenever the two wrapped generators return values
in [0,1), the difference-combine output `d = x - y`, incremented by 1 when
negative, lies in [0,1). -/
theorem combine_output_in_unit (x y : ℚ)
    (hx0 : 0 ≤ x) (hx1 : x < 1) (hy0 : 0 ≤ y) (hy1 : y < 1) :
    0 ≤ combineGetNext x y ∧ combineGetNext x y < 1 := by
  simp only [combineGetNext]
  split_ifs with h <;> constructor <;> linarith

/-- Witness for `combine_output_in_unit` at x = 1/2, y = 3/4. -/
theorem combine_output_in_unit_witness :
    ((0 : ℚ) ≤ 1 / 2 ∧ (1 / 2 : ℚ) < 1 ∧ (0 : ℚ) ≤ 3 / 4 ∧ (3 / 4 : ℚ) < 1) ∧
    0 ≤ combineGetNext (1 / 2) (3 / 4) ∧ combineGetNext (1 / 2) (3 / 4) < 1 :=
  ⟨⟨by norm_num, by norm_num, by norm_num, by norm_num⟩,
   combine_output_in_unit (1 / 2) (3 / 4) (by norm_num) (by norm_num)
     (by norm_num) (by norm_num)⟩

/-- Counterexample to claim C4 as stated: the pending test is `last > 0`, so
an accepted pair whose cached second value is 0 (possible: the raw draw 0
gives `v2 = 0`) is not treated as pending.  With raw draws 1, 0, 1, 1 the
first call accepts the pair `(2/2147483647, 0)`, returns one value and
caches 0; the second call finds no pending value and runs the rejection
loop again, so two outputs consume all four draws, not two. -/
theorem polar_pair_four_draws :
    polarGetNext (fun _ => 1) (-1) [1, 0, 1, 1] = some (2 / 2147483647, 0, [1, 1]) ∧
    polarTwoCalls (fun _ => 1) (-1) [1, 0, 1, 1] = some [] ∧
    ([] : List ℚ) ≠ [1, 1] := by
  have hL : polarLoop [(1 : ℚ), 0, 1, 1] =
      some (2 / 2147483647, 0, 4 / 4611686014132420609, [1, 1]) := by
    norm_num [polarLoop]
  have h1 : polarGetNext (fun _ => 1) (-1) [1, 0, 1, 1] =
      some (2 / 2147483647, 0, [1, 1]) := by
    simp only [polarGetNext, hL]
    norm_num
  have hL2 : polarLoop [(1 : ℚ), 1] =
      some (2 / 2147483647, 2 / 2147483647, 8 / 4611686014132420609, []) := by
    norm_num [polarLoop]
  have h2 : polarGetNext (fun _ => 1) (0 : ℚ) [1, 1] =
      some (2 / 2147483647, 2 / 2147483647, []) := by
    simp only [polarGetNext, hL2]
    norm_num
  refine ⟨h1, ?_, by simp⟩
  simp only [polarTwoCalls, h1, h2]

/-- Claim C4 (amended): whenever a cached value is pending (the member
`last` is positive), the next `getNext` call returns exactly that cached
value and resets `last` to -1 without consuming any uniform draw; and once
the rejection loop accepts a pair whose cached second value `v2 * f s` is
positive, two calls consume exactly that pair's draws — the unamended
"exactly two calls per accepted pair" fails only when the cached value is
not positive (for instance 0), since the code's pending test is `last > 0`. -/
theorem polar_cached_value_invariant (f : ℚ → ℚ) (last : ℚ) (draws : List ℚ) :
    (0 < last → polarGetNext f last draws = some (last, -1, draws)) ∧
    (∀ v1 v2 s rest, ¬ 0 < last → polarLoop draws = some (v1, v2, s, rest) →
      0 < v2 * f s → polarTwoCalls f last draws = some rest) := by
  constructor
  · intro h
    simp [polarGetNext, h]
  · intro v1 v2 s rest hlast hloop hpos
    have h1 : polarGetNext f last draws = some (v1 * f s, v2 * f s, rest) := by
      simp only [polarGetNext, if_neg hlast, hloop]
    have h2 : polarGetNext f (v2 * f s) rest = some (v2 * f s, -1, rest) := by
      simp only [polarGetNext, if_pos hpos]
    simp only [polarTwoCalls, h1, h2]

/-- Witness for `polar_cached_value_invariant`: a pending cache 5 is
returned unchanged, and the pair accepted from raw draws 1, 1 is exhausted
by two calls with no further draws consumed. -/
theorem polar_cached_value_invariant_witness :
    ((0 : ℚ) < 5 ∧ polarGetNext (fun _ => 1) 5 [3] = some (5, -1, [3])) ∧
    polarTwoCalls (fun _ => 1) (-1) [1, 1] = some [] :=
  ⟨⟨by norm_num, (polar_cached_value_invariant (fun _ => 1) 5 [3]).1 (by norm_num)⟩,
   (polar_cached_value_invariant (fun _ => 1) (-1) [1, 1]).2 (2 / 2147483647)
     (2 / 2147483647) (8 / 4611686014132420609) [] (by norm_num)
     (by norm_num [polarLoop]) (by norm_num)⟩

/-- Pointwise description of the sample loop: folding `histUpdate` over a
sample list adds to each bin the number of samples that pass the range guard
and compute that bin's index. -/
theorem foldl_histUpdate_apply (minR maxR : ℚ) (n : ℕ) (l : List ℚ) :
    ∀ (bins : ℤ → ℕ) (i : ℤ),
      (l.foldl (histUpdate minR maxR n) bins) i
        = bins i + l.countP (inBin minR maxR n i) := by
  induction l with
  | nil => intro bins i; simp
  | cons v l ih =>
    intro bins i
    rw [List.foldl_cons, ih, List.countP_cons]
    have hstep : histUpdate minR maxR n bins v i
        = bins i + (if inBin minR maxR n i v then 1 else 0) := by
      unfold histUpdate inBin
      by_cases hv : minR ≤ v ∧ v ≤ maxR
      · rw [if_pos hv, Function.update_apply]
        by_cases hidx : i = binIndex minR maxR n v
        · simp [hidx, hv]
        · have hidx2 : ¬ binIndex minR maxR n v = i := fun h => hidx h.symm
          simp [hidx, hidx2, hv]
      · rw [if_neg hv]
        simp [hv]
    rw [hstep]
    ring

/-- The folded bin counts of `histBins` equal a `countP` over the samples. -/
theorem histBins_apply (samples : List ℚ) (minR maxR : ℚ) (n : ℕ) (i : ℤ) :
    histBins samples minR maxR n i = samples.countP (inBin minR maxR n i) := by
  have h := foldl_histUpdate_apply minR maxR n samples (fun _ => 0) i
  simpa [histBins] using h

/-- A single sample contributes to at most one of the bins 0..n-1, and only
when it passes the range guard. -/
theorem sum_indicator_binIndex (minR maxR : ℚ) (n : ℕ) (v : ℚ) :
    (∑ i in Finset.range n, if inBin minR maxR n (Int.ofNat i) v then 1 else 0)
      ≤ (if inRange minR maxR v then (1 : ℕ) else 0) := by
  simp only [inBin, inRange, decide_eq_true_eq]
  by_cases hv : minR ≤ v ∧ v ≤ maxR
  · simp only [hv, true_and, if_true]
    have hrw : ∀ i ∈ Finset.range n,
        (if binIndex minR maxR n v = Int.ofNat i then (1 : ℕ) else 0)
          = if Int.ofNat i = binIndex minR maxR n v then 1 else 0 := by
      intro i _
      simp [eq_comm]
    rw [Finset.sum_congr rfl hrw, Finset.sum_boole]
    simp only [Nat.cast_id]
    refine Finset.card_le_one.mpr ?_
    intro a ha b hb
    simp only [Finset.mem_filter] at ha hb
    exact Int.ofNat_inj.mp (ha.2.trans hb.2.symm)
  · simp [hv]

/-- Summed over the reported bins 0..n-1, the counts are at most the number
of in-range samples (each sample lands in at most one reported bin). -/
theorem sum_histBins_le (samples : List ℚ) (minR maxR : ℚ) (n : ℕ) :
    (∑ i in Finset.range n, samples.countP (inBin minR maxR n (Int.ofNat i)))
      ≤ samples.countP (inRange minR maxR) := by
  induction samples with
  | nil => simp
  | cons v l ih =>
    simp only [List.countP_cons]
    rw [Finset.sum_add_distrib]
    exact Nat.add_le_add ih (sum_indicator_binIndex minR maxR n v)

/-- A list containing an element on which the predicate fails has strictly
fewer predicate-satisfying elements than its length. -/
theorem countP_lt_length_of_out (l : List ℚ) (p : ℚ → Bool) (v : ℚ)
    (hv : v ∈ l) (hp : p v = false) : l.countP p < l.length := by
  induction l with
  | nil => cases hv
  | cons a l ih =>
    rw [List.countP_cons, List.length_cons]
    rcases List.mem_cons.mp hv with h | h
    · subst h
      rw [hp]
      simpa using Nat.lt_succ_of_le (List.countP_le_length p)
    · have := ih h
      cases hpa : p a <;> simp <;> omega

/-- Sum over `List.range` rewritten as a `Finset.range` sum. -/
theorem range_map_sum (n : ℕ) (g : ℕ → ℚ) :
    ((List.range n).map g).sum = ∑ i in Finset.range n, g i := by
  induction n with
  | zero => simp
  | succ k ih =>
    rw [List.range_succ, List.map_append, List.sum_append, Finset.sum_range_succ, ih]
    simp

/-- Claim C7 (confirmed): for every histogram call, every reported bin's
relative frequency is that bin's count divided by the total number of input
samples — the count of samples passing the range guard with that bin index,
over the full input length — and whenever at least one sample lies outside
`[minRange, maxRange]`, the reported frequencies sum to strictly less
than 1. -/
theorem histogram_freq_total_denominator (samples : List ℚ) (minR maxR : ℚ)
    (n : ℕ) :
    (∀ i : ℕ, i < n → (histogram samples minR maxR n)[i]? =
      some (minR + (i : ℚ) * ((maxR - minR) / (n : ℚ)),
        minR + ((i : ℚ) + 1) * ((maxR - minR) / (n : ℚ)),
        (samples.countP (inBin minR maxR n (Int.ofNat i)) : ℚ) / (samples.length : ℚ))) ∧
    ((∃ v ∈ samples, ¬ (minR ≤ v ∧ v ≤ maxR)) →
      ((histogram samples minR maxR n).map (fun t => t.2.2)).sum < 1) := by
  constructor
  · intro i hi
    simp only [histogram]
    rw [List.getElem?_map]
    simp [List.getElem?_range, hi, histBins_apply]
  · intro hout
    obtain ⟨w, hw, hwp⟩ := hout
    have hlen : 0 < samples.length := List.length_pos.mpr (List.ne_nil_of_mem hw)
    have hmap : (histogram samples minR maxR n).map (fun t => t.2.2)
        = (List.range n).map (fun i =>
            (samples.countP (inBin minR maxR n (Int.ofNat i)) : ℚ)
              / (samples.length : ℚ)) := by
      simp only [histogram, List.map_map]
      refine List.map_congr_left ?_
      intro i _
      simp [Function.comp, histBins_apply]
    rw [hmap, range_map_sum, ← Finset.sum_div,
      div_lt_one (by exact_mod_cast hlen : (0 : ℚ) < (samples.length : ℚ))]
    have hcast : (∑ i in Finset.range n,
        (samples.countP (inBin minR maxR n (Int.ofNat i)) : ℚ))
          = ((∑ i in Finset.range n,
              samples.countP (inBin minR maxR n (Int.ofNat i)) : ℕ) : ℚ) :=
      (Nat.cast_sum _ _).symm
    rw [hcast]
    have hlt : (∑ i in Finset.range n,
        samples.countP (inBin minR maxR n (Int.ofNat i))) < samples.length := by
      refine lt_of_le_of_lt (sum_histBins_le samples minR maxR n) ?_
      refine countP_lt_length_of_out samples (inRange minR maxR) w hw ?_
      unfold inRange
      exact decide_eq_false hwp
    exact_mod_cast hlt

/-- Witness for `histogram_freq_total_denominator`: in the call
`histogram([1/2, 2], 0, 1, 2)` bin 1 reports its count over the total
sample count, the list has the out-of-range sample 2, and the reported
frequencies sum to 1/2 < 1. -/
theorem histogram_freq_total_denominator_witness :
    ((1 : ℕ) < 2 ∧
      (histogram [(1 : ℚ) / 2, 2] 0 1 2)[1]? =
        some (0 + ((1 : ℕ) : ℚ) * ((1 - 0) / ((2 : ℕ) : ℚ)),
          0 + (((1 : ℕ) : ℚ) + 1) * ((1 - 0) / ((2 : ℕ) : ℚ)),
          (([(1 : ℚ) / 2, 2].countP (inBin 0 1 2 (Int.ofNat 1)) : ℕ) : ℚ)
            / (([(1 : ℚ) / 2, 2].length : ℕ) : ℚ))) ∧
    ((∃ v ∈ [(1 : ℚ) / 2, 2], ¬ ((0 : ℚ) ≤ v ∧ v ≤ 1)) ∧
      ((histogram [(1 : ℚ) / 2, 2] 0 1 2).map (fun t => t.2.2)).sum < 1) :=
  ⟨⟨by norm_num,
    (histogram_freq_total_denominator [(1 : ℚ) / 2, 2] 0 1 2).1 1 (by norm_num)⟩,
   ⟨⟨2, by norm_num, by norm_num⟩,
    (histogram_freq_total_denominator [(1 : ℚ) / 2, 2] 0 1 2).2
      ⟨2, by norm_num, by norm_num⟩⟩⟩
